import Mathlib

/-!
Shallow embedding of the `domainmatcher` crate (src/lib.rs): a domain
pattern compiler (`TryFrom<&str> for DomainPattern`) and an NFA-style
matching engine (`DomainPattern::matches`), together with theorems about
the compiler's folding rules, the error reporting, `to_owned`, and the
matching engine.

Rust machine details are modelled as follows: `str::len` (UTF-8 byte
count) becomes `byteLen`, `str::split` on a `char` separator becomes
`strSplit` (keeping empty pieces, exactly like Rust), `Cow<'a, str>`
becomes `String` (Cow equality is content equality), the const generic
`SPLITTER: char` becomes an ordinary field, and the two slice-indexing
sites of `matches` that Rust does not guard are modelled with `Option`
(`none` = out-of-range read, i.e. a panic), shown unreachable below.
-/

/-- UTF-8 byte length of a character, mirroring Rust `char::len_utf8`. -/
def charUtf8Size (c : Char) : Nat :=
  if c.toNat < 128 then 1
  else if c.toNat < 2048 then 2
  else if c.toNat < 65536 then 3
  else 4

/-- UTF-8 byte length of a string, mirroring Rust `str::len`. -/
def byteLen (s : String) : Nat := (s.data.map charUtf8Size).sum

/-- Worker for `strSplit`: `acc` holds the (reversed) characters of the
current piece. -/
def splitWorker (sep : Char) : List Char → List Char → List String
  | [], acc => [String.mk acc.reverse]
  | c :: cs, acc =>
    if c = sep then String.mk acc.reverse :: splitWorker sep cs []
    else splitWorker sep cs (c :: acc)

/-- Split a string at every occurrence of `sep`, keeping empty pieces:
mirrors Rust `str::split` with a `char` pattern (so `strSplit '.' "" = [""]`
and `strSplit '.' ".." = ["", "", ""]`). -/
def strSplit (sep : Char) (s : String) : List String := splitWorker sep s.data []

/-- Mirrors `DomainPatternWildcard` (src/lib.rs lines 221-225). -/
structure DomainPatternWildcard where
  multi : Bool
  optional : Bool

/-- Mirrors `DomainPatternPart` (src/lib.rs lines 215-219); `Cow<'a, str>`
is modelled by `String`. -/
inductive DomainPatternPart where
  | Static (label : String)
  | Wildcard (w : DomainPatternWildcard)

/-- Mirrors `DomainPattern<'a, const SPLITTER: char>` (src/lib.rs lines
37-40); the const generic `SPLITTER` becomes a field. -/
structure DomainPattern where
  SPLITTER : Char
  steps : List DomainPatternPart

/-- Mirrors `InvalidToken` (src/lib.rs lines 200-205). -/
structure InvalidToken where
  position : Nat
  unexpected_token : String
  full_string : String

/-- Result of classifying one raw token, mirroring the `match part` arms of
`try_from` (src/lib.rs lines 139-156). -/
inductive TokenKind where
  | wildcard (optional multi : Bool)
  | invalid
  | literal

/-- The `match part` in `try_from`: the four wildcard shorthands, then the
stray `*`/`+` error case, then a literal label. -/
def classifyToken (t : String) : TokenKind :=
  if t = "*" then .wildcard true false
  else if t = "+" then .wildcard false false
  else if t = "**" then .wildcard true true
  else if t = "**+" then .wildcard false true
  else if t.data.any (fun c => c = '*' || c = '+') then .invalid
  else .literal

/-- The "optimizer" block of `try_from` (src/lib.rs lines 159-189), acting
on the steps built so far in reverse order (head = most recent step).
Returns the new reversed step list and whether a new step was pushed
(`false` for the two `continue` rewrites, which also skip the trailing
offset increment of the loop body). -/
def foldPush (rsteps : List DomainPatternPart) (opt mult : Bool) :
    List DomainPatternPart × Bool :=
  match rsteps with
  | .Wildcard ⟨last_multi, last_optional⟩ :: rest =>
    if last_multi && last_optional && mult && opt then
      (.Wildcard ⟨last_multi, last_optional⟩ :: rest, false)
    else if (opt != last_optional) && (last_multi || mult) then
      (.Wildcard ⟨true, false⟩ :: rest, false)
    else if last_multi && !opt && !last_optional then
      (.Wildcard ⟨true, opt⟩ :: .Wildcard ⟨false, last_optional⟩ :: rest, true)
    else
      (.Wildcard ⟨mult, opt⟩ :: .Wildcard ⟨last_multi, last_optional⟩ :: rest, true)
  | _ => (.Wildcard ⟨mult, opt⟩ :: rsteps, true)

/-- The token loop of `try_from` (src/lib.rs lines 135-192), with the steps
accumulated in reverse. `off` is the running `offset` variable: it grows by
`part.len() + 1` at loop entry and by `1 + part.len()` more at the end of
the static branch and of a wildcard iteration that pushes a step (the two
fold `continue`s skip that second increment). -/
def try_fromAux (s : String) : List String → List DomainPatternPart → Nat →
    Except InvalidToken (List DomainPatternPart)
  | [], rsteps, _ => .ok rsteps.reverse
  | part :: rest, rsteps, off =>
    let position := off
    let off1 := off + byteLen part + 1
    match classifyToken part with
    | .invalid => .error ⟨position, part, s⟩
    | .literal => try_fromAux s rest (.Static part :: rsteps) (off1 + 1 + byteLen part)
    | .wildcard opt mult =>
      match foldPush rsteps opt mult with
      | (rsteps2, true) => try_fromAux s rest rsteps2 (off1 + 1 + byteLen part)
      | (rsteps2, false) => try_fromAux s rest rsteps2 off1

/-- Mirrors `impl TryFrom<&'a str> for DomainPattern<'a, SPLITTER>`
(src/lib.rs lines 129-198). -/
def DomainPattern.try_from (sep : Char) (s : String) :
    Except InvalidToken DomainPattern :=
  (try_fromAux s (strSplit sep s) [] 0).map (fun st => ⟨sep, st⟩)

/-- Mirrors `DomainPattern::parse` (src/lib.rs lines 43-45). -/
def DomainPattern.parse (sep : Char) (pattern : String) :
    Except InvalidToken DomainPattern :=
  DomainPattern.try_from sep pattern

/-- Same tokenization as `try_fromAux` but without the three fold rewrites:
every wildcard token pushes its own step. This is the "unfolded"
compilation that the folding-preservation property compares against. -/
def unfoldedAux (s : String) : List String → List DomainPatternPart → Nat →
    Except InvalidToken (List DomainPatternPart)
  | [], rsteps, _ => .ok rsteps.reverse
  | part :: rest, rsteps, off =>
    let position := off
    let off1 := off + byteLen part + 1
    match classifyToken part with
    | .invalid => .error ⟨position, part, s⟩
    | .literal => unfoldedAux s rest (.Static part :: rsteps) (off1 + 1 + byteLen part)
    | .wildcard opt mult =>
      unfoldedAux s rest (.Wildcard ⟨mult, opt⟩ :: rsteps) (off1 + 1 + byteLen part)

/-- The unfolded compilation: identical tokenization, no folding. -/
def DomainPattern.compileUnfolded (sep : Char) (s : String) :
    Except InvalidToken DomainPattern :=
  (unfoldedAux s (strSplit sep s) [] 0).map (fun st => ⟨sep, st⟩)

/-- Mirrors `DomainPattern::to_owned` (src/lib.rs lines 47-54). Its Rust
return type is `DomainPattern<'static>`, i.e. `DomainPattern<'static, '.'>`:
the `SPLITTER` parameter is not propagated, so the owned copy uses the
default separator again. -/
def DomainPattern.to_owned (p : DomainPattern) : DomainPattern :=
  ⟨'.', p.steps.map (fun e =>
    match e with
    | .Static s => .Static s
    | .Wildcard w => .Wildcard w)⟩

/-- The `while let` loop of `matches` (src/lib.rs lines 109-118), skipping
over optional wildcards after a consumed segment. `suffix` is
`steps.drop next_idx`; reading past the end of the steps (which Rust would
do unguarded, panicking) yields `none`. Returns the grown `next_stack` and
the `saw_last` contribution of the loop. -/
def epsSkip : List DomainPatternPart → Nat → List Nat → Option (List Nat × Bool)
  | [], _, _ => none
  | part :: rest, next_idx, next_stack =>
    match part with
    | .Wildcard ⟨_, true⟩ =>
      if rest.isEmpty then some (next_stack, true)
      else epsSkip rest (next_idx + 1) (next_stack ++ [next_idx + 1])
    | _ => some (next_stack, false)

/-- Lines 100-118 of `matches`: advance past a consumed segment at `path`,
recording a terminal hit when `path + 1` is the sequence length and
otherwise pushing `path + 1` and epsilon-skipping optional wildcards. -/
def procTail (steps : List DomainPatternPart) (path : Nat) (next_stack : List Nat) :
    Option (List Nat × Bool) :=
  if path + 1 = steps.length then some (next_stack, true)
  else epsSkip (steps.drop (path + 1)) (path + 1) (next_stack ++ [path + 1])

/-- Lines 85-118 of `matches`: process one live index `path` against the
current segment. A `Static` mismatch kills the thread; a `multi` wildcard
additionally stays at `path` for the next segment. -/
def procPath (steps : List DomainPatternPart) (label : String) (path : Nat)
    (next_stack : List Nat) : Option (List Nat × Bool) :=
  match steps[path]? with
  | none => none
  | some (.Static d) =>
    if d = label then procTail steps path next_stack else some (next_stack, false)
  | some (.Wildcard w) =>
    procTail steps path (if w.multi then next_stack ++ [path] else next_stack)

/-- The `for path in &stack` loop of `matches` (src/lib.rs lines 74-119):
out-of-range indices are skipped, adjacent duplicates (after sorting) are
skipped via `last_path`, and `saw_last` accumulates over the segment. -/
def procStack (steps : List DomainPatternPart) (label : String) :
    List Nat → Option Nat → List Nat → Bool → Option (List Nat × Bool)
  | [], _, next_stack, saw_last => some (next_stack, saw_last)
  | path :: rest, last_path, next_stack, saw_last =>
    if steps.length ≤ path then
      procStack steps label rest last_path next_stack saw_last
    else if last_path = some path then
      procStack steps label rest last_path next_stack saw_last
    else
      match procPath steps label path next_stack with
      | none => none
      | some (next_stack2, saw2) =>
        procStack steps label rest (some path) next_stack2 (saw_last || saw2)

/-- Insertion into an ascending list, for `sortNat`. -/
def insertNat (x : Nat) : List Nat → List Nat
  | [] => [x]
  | y :: ys => if x ≤ y then x :: y :: ys else y :: insertNat x ys

/-- Ascending insertion sort. On `Nat` the ascending-sorted permutation of
a list is unique, so this yields exactly the list Rust `Vec::sort`
produces for the `stack.sort()` call of `matches`. -/
def sortNat (l : List Nat) : List Nat := l.foldr insertNat []

/-- The segment loop of `matches` (src/lib.rs lines 64-123): empty labels
are skipped (keeping the current `saw_last`), otherwise `saw_last` is reset,
the stack is sorted and processed, and the next generation is swapped in. -/
def runLabels (steps : List DomainPatternPart) :
    List String → List Nat → Bool → Option Bool
  | [], _, saw_last => some saw_last
  | label :: rest, stack, saw_last =>
    if label = "" then runLabels steps rest stack saw_last
    else
      match procStack steps label (sortNat stack) none [] false with
      | none => none
      | some (next_stack, saw2) => runLabels steps rest next_stack saw2

/-- `matches` on an already-split list of labels, starting from the single
live index `0` with `saw_last = false`. -/
def matchesSteps (steps : List DomainPatternPart) (labels : List String) :
    Option Bool :=
  runLabels steps labels [0] false

/-- Mirrors `DomainPattern::matches` (src/lib.rs lines 56-126). `none`
models an out-of-range slice read (a Rust panic); totality is proved
below. -/
def DomainPattern.matches (p : DomainPattern) (domain : String) : Option Bool :=
  matchesSteps p.steps (strSplit p.SPLITTER domain)

/-- A raw token that contains `*` or `+` but is not one of the four
wildcard shorthands: exactly the tokens `try_from` rejects. -/
def badToken (t : String) : Bool :=
  (t.data.any (fun c => c = '*' || c = '+')) &&
    !(t = "*" || t = "+" || t = "**" || t = "**+")

/-- True byte offset of the start of the `k`-th token of `tokens` inside
the original pattern string (each earlier token contributes its byte length
plus one separator). -/
def tokenStart (sep : Char) (tokens : List String) (k : Nat) : Nat :=
  ((tokens.take k).map (fun t => byteLen t + charUtf8Size sep)).sum

/-! ### Helper lemmas -/

theorem map_part_id : ∀ (l : List DomainPatternPart),
    l.map (fun e =>
      match e with
      | .Static s => .Static s
      | .Wildcard w => .Wildcard w) = l := by
  intro l
  induction l with
  | nil => rfl
  | cons e rest ih => cases e <;> simp [ih]

theorem to_owned_steps (p : DomainPattern) : p.to_owned.steps = p.steps :=
  map_part_id p.steps

theorem classifyToken_eq_invalid (t : String) :
    classifyToken t = .invalid ↔ badToken t = true := by
  unfold classifyToken badToken
  split_ifs with h1 h2 h3 h4 h5 <;> simp_all

theorem badToken_false_of_not_invalid {t : String}
    (h : classifyToken t ≠ .invalid) : badToken t = false := by
  cases hb : badToken t with
  | false => rfl
  | true => exact absurd ((classifyToken_eq_invalid t).2 hb) h

/-! ### Claim theorems: concrete evaluations -/

/-- C1: what the code actually returns on the leading-wildcard truth table
(separator `.`). The claim (and the crate's own doc table, src/lib.rs lines
5-11) says `*.domain.tld` and `**.domain.tld` match `domain.tld`; the
engine seeds only state 0 and never epsilon-skips a leading optional
wildcard, so both return `false` there. The remaining rows agree with the
claim. -/
theorem c1_leading_wildcard_truth_table :
    (DomainPattern.try_from '.' "*.domain.tld").map (fun p =>
        (p.matches "domain.tld", p.matches "sub.domain.tld",
          p.matches "sub.sub.domain.tld"))
      = .ok (some false, some true, some false)
    ∧ (DomainPattern.try_from '.' "**.domain.tld").map (fun p =>
        (p.matches "domain.tld", p.matches "sub.domain.tld",
          p.matches "sub.sub.domain.tld"))
      = .ok (some false, some true, some true) :=
  ⟨rfl, rfl⟩

/-- C2: folding does not preserve the implemented engine's semantics. For
the pattern `**.+` the folded compilation is the single step `**+`, which
matches the name `a`, while the unfolded sequence `[**, +]` does not: the
engine cannot let a leading `**` consume zero segments. The fold comment
(src/lib.rs line 167, `**.+ = **+`) asserts an equivalence the engine
falsifies. -/
theorem c2_folding_observable_difference :
    (DomainPattern.try_from '.' "**.+").map (fun p => p.matches "a")
      = .ok (some true)
    ∧ (DomainPattern.compileUnfolded '.' "**.+").map (fun p => p.matches "a")
      = .ok (some false) :=
  ⟨rfl, rfl⟩

/-- C3 counterexample: a pattern compiled with separator `/` matches
`nice/nice`, but its `to_owned` copy splits names on `.` (the default
separator of the result type) and does not. -/
theorem c3_to_owned_changes_separator :
    (DomainPattern.try_from '/' "+/nice/**").map (fun p =>
      (p.matches "nice/nice", p.to_owned.matches "nice/nice"))
    = .ok (some true, some false) :=
  rfl

/-- C4: `to_owned` always returns a pattern whose splitter is the default
`.` (the `SPLITTER` parameter is not propagated in the Rust return type
`DomainPattern<'static>`), so the owned copy of a `/`-separated pattern
splits candidate names on `.` and loses matches the original had. -/
theorem c4_to_owned_resets_SPLITTER :
    (∀ p : DomainPattern, p.to_owned.SPLITTER = '.')
    ∧ (DomainPattern.try_from '/' "+/nice/**").map (fun p =>
        (p.matches "nice/nice/nice", p.to_owned.matches "nice/nice/nice"))
      = .ok (some true, some false) :=
  ⟨fun _ => rfl, rfl⟩

/-- C7: a pattern of five consecutive `**` tokens compiles to exactly one
step (the `**.** = **` fold collapses the chain), and the result matches
`x`, `x.x`, `x.x.x` and `x.x.x.x`. -/
theorem c7_five_double_wildcards_single_step :
    (DomainPattern.try_from '.' "**.**.**.**.**").map (fun p =>
      (p.steps.length, p.matches "x", p.matches "x.x", p.matches "x.x.x",
        p.matches "x.x.x.x"))
    = .ok (1, some true, some true, some true, some true) :=
  rfl

/-- C8: `**+.+.**+` compiles so that its first two steps are both
wildcards with `multi = false` and `optional = false`: the cascading fold
shifts the one-or-more repetition rightward through chains of non-optional
wildcards. -/
theorem c8_cascading_fold_first_two_steps :
    (DomainPattern.try_from '.' "**+.+.**+").map (fun p => p.steps.take 2)
    = .ok [.Wildcard ⟨false, false⟩, .Wildcard ⟨false, false⟩] :=
  rfl

/-- C9 counterexample: the offset is NOT incremented twice for every
processed token. For `**.**.x*` the second `**` is folded away and its
branch ends in a `continue` that skips the second increment, so the
reported position is 9, not twice the true byte offset 6 of the invalid
token `x*`. -/
theorem c9_position_not_doubled :
    DomainPattern.try_from '.' "**.**.x*" = .error ⟨9, "x*", "**.**.x*"⟩
    ∧ tokenStart '.' (strSplit '.' "**.**.x*")
        ((strSplit '.' "**.**.x*").findIdx badToken) = 6
    ∧ ¬ ((9 : Nat) = 2 * 6) :=
  ⟨rfl, rfl, by decide⟩

/-! ### Compiler error characterization (C5) -/

theorem try_fromAux_error_token (s : String) :
    ∀ (ts : List String) (rsteps : List DomainPatternPart) (off : Nat)
      (e : InvalidToken), try_fromAux s ts rsteps off = .error e →
      ts.find? badToken = some e.unexpected_token ∧ e.full_string = s := by
  intro ts
  induction ts with
  | nil => intro rsteps off e h; simp [try_fromAux] at h
  | cons part rest ih =>
    intro rsteps off e h
    cases hc : classifyToken part with
    | invalid =>
      simp only [try_fromAux, hc] at h
      have hb : badToken part = true := (classifyToken_eq_invalid part).1 hc
      cases h
      exact ⟨by rw [List.find?_cons_of_pos _ hb], rfl⟩
    | literal =>
      simp only [try_fromAux, hc] at h
      have hb : badToken part = false :=
        badToken_false_of_not_invalid (by rw [hc]; intro hx; cases hx)
      rw [List.find?_cons_of_neg _ (by simp [hb])]
      exact ih _ _ _ h
    | wildcard opt mult =>
      simp only [try_fromAux, hc] at h
      have hb : badToken part = false :=
        badToken_false_of_not_invalid (by rw [hc]; intro hx; cases hx)
      rw [List.find?_cons_of_neg _ (by simp [hb])]
      cases hf : foldPush rsteps opt mult with
      | mk rsteps2 pushed =>
        cases pushed <;> simp only [hf] at h <;> exact ih _ _ _ h

theorem try_fromAux_ok (s : String) :
    ∀ (ts : List String) (rsteps : List DomainPatternPart) (off : Nat),
      (∀ t ∈ ts, badToken t = false) →
      ∃ st, try_fromAux s ts rsteps off = .ok st := by
  intro ts
  induction ts with
  | nil => intro rsteps off _; exact ⟨rsteps.reverse, rfl⟩
  | cons part rest ih =>
    intro rsteps off hall
    have hb : badToken part = false := hall part (by simp)
    have hrest : ∀ t ∈ rest, badToken t = false :=
      fun t ht => hall t (by simp [ht])
    cases hc : classifyToken part with
    | invalid =>
      rw [(classifyToken_eq_invalid part).1 hc] at hb
      cases hb
    | literal =>
      simp only [try_fromAux, hc]
      exact ih _ _ hrest
    | wildcard opt mult =>
      simp only [try_fromAux, hc]
      cases hf : foldPush rsteps opt mult with
      | mk rsteps2 pushed =>
        cases pushed <;> simp only [hf] <;> exact ih _ _ hrest

theorem try_fromAux_error_exists (s : String) :
    ∀ (ts : List String) (rsteps : List DomainPatternPart) (off : Nat),
      (∃ t ∈ ts, badToken t = true) →
      ∃ e, try_fromAux s ts rsteps off = .error e := by
  intro ts
  induction ts with
  | nil => intro rsteps off h; simp at h
  | cons part rest ih =>
    intro rsteps off hex
    cases hc : classifyToken part with
    | invalid =>
      simp only [try_fromAux, hc]
      exact ⟨_, rfl⟩
    | literal =>
      simp only [try_fromAux, hc]
      have hb : badToken part = false :=
        badToken_false_of_not_invalid (by rw [hc]; intro hx; cases hx)
      obtain ⟨t, ht, hbt⟩ := hex
      rcases List.mem_cons.mp ht with h1 | h1
      · subst h1; rw [hb] at hbt; cases hbt
      · exact ih _ _ ⟨t, h1, hbt⟩
    | wildcard opt mult =>
      simp only [try_fromAux, hc]
      have hb : badToken part = false :=
        badToken_false_of_not_invalid (by rw [hc]; intro hx; cases hx)
      obtain ⟨t, ht, hbt⟩ := hex
      rcases List.mem_cons.mp ht with h1 | h1
      · subst h1; rw [hb] at hbt; cases hbt
      · cases hf : foldPush rsteps opt mult with
        | mk rsteps2 pushed =>
          cases pushed <;> simp only [hf] <;> exact ih _ _ ⟨t, h1, hbt⟩

/-- C5: compilation fails if and only if some token contains `*` or `+`
without being one of the four shorthands; the error is for the leftmost
such token (`List.find?`) and carries that token and the full pattern
string. Every other pattern, the empty string included, compiles. -/
theorem c5_invalid_token_characterization (sep : Char) (s : String) :
    ((DomainPattern.try_from sep s).isOk = true ↔
      ∀ t ∈ strSplit sep s, badToken t = false)
    ∧ ∀ e, DomainPattern.try_from sep s = .error e →
        (strSplit sep s).find? badToken = some e.unexpected_token
        ∧ e.full_string = s := by
  constructor
  · constructor
    · intro hok t ht
      cases hb : badToken t with
      | false => rfl
      | true =>
        obtain ⟨e, he⟩ := try_fromAux_error_exists s (strSplit sep s) [] 0 ⟨t, ht, hb⟩
        rw [DomainPattern.try_from, he] at hok
        simp [Except.map, Except.isOk, Except.toBool] at hok
    · intro hall
      obtain ⟨st, hst⟩ := try_fromAux_ok s (strSplit sep s) [] 0 hall
      rw [DomainPattern.try_from, hst]
      rfl
  · intro e he
    rw [DomainPattern.try_from] at he
    cases hr : try_fromAux s (strSplit sep s) [] 0 with
    | error e0 =>
      rw [hr] at he
      simp only [Except.map] at he
      cases he
      exact try_fromAux_error_token s _ _ _ _ hr
    | ok st =>
      rw [hr] at he
      simp [Except.map] at he

/-- Witness for C5 at the pattern `a*b.c`: the leftmost bad token is
`a*b`, and the error carries it together with the full pattern. -/
theorem c5_invalid_token_witness :
    (strSplit '.' "a*b.c").find? badToken = some "a*b"
    ∧ "a*b.c" = "a*b.c" :=
  (c5_invalid_token_characterization '.' "a*b.c").2 ⟨0, "a*b", "a*b.c"⟩ rfl

/-! ### Error position bounds (C9) -/

theorem tokenStart_cons (sep : Char) (t : String) (ts : List String) (k : Nat) :
    tokenStart sep (t :: ts) (k + 1)
      = byteLen t + charUtf8Size sep + tokenStart sep ts k := by
  simp [tokenStart, List.take_succ_cons]

theorem try_fromAux_error_position (s : String) (sep : Char)
    (h1 : charUtf8Size sep = 1) :
    ∀ (ts : List String) (rsteps : List DomainPatternPart) (off : Nat)
      (e : InvalidToken), try_fromAux s ts rsteps off = .error e →
      off + tokenStart sep ts (ts.findIdx badToken) ≤ e.position ∧
      e.position ≤ off + 2 * tokenStart sep ts (ts.findIdx badToken) := by
  intro ts
  induction ts with
  | nil => intro rsteps off e h; simp [try_fromAux] at h
  | cons part rest ih =>
    intro rsteps off e h
    cases hc : classifyToken part with
    | invalid =>
      simp only [try_fromAux, hc] at h
      have hb : badToken part = true := (classifyToken_eq_invalid part).1 hc
      cases h
      simp [List.findIdx_cons, hb, tokenStart]
    | literal =>
      simp only [try_fromAux, hc] at h
      have hb : badToken part = false :=
        badToken_false_of_not_invalid (by rw [hc]; intro hx; cases hx)
      have hrec := ih _ _ _ h
      simp only [List.findIdx_cons, hb, cond_false, tokenStart_cons, h1]
      omega
    | wildcard opt mult =>
      simp only [try_fromAux, hc] at h
      have hb : badToken part = false :=
        badToken_false_of_not_invalid (by rw [hc]; intro hx; cases hx)
      cases hf : foldPush rsteps opt mult with
      | mk rsteps2 pushed =>
        simp only [List.findIdx_cons, hb, cond_false, tokenStart_cons, h1]
        cases pushed <;> simp only [hf] at h <;> have hrec := ih _ _ _ h <;> omega

theorem try_fromAux_error_position_strict (s : String) (sep : Char)
    (h1 : charUtf8Size sep = 1) :
    ∀ (ts : List String) (off : Nat) (e : InvalidToken),
      try_fromAux s ts [] off = .error e → 1 ≤ ts.findIdx badToken →
      off + tokenStart sep ts (ts.findIdx badToken) < e.position := by
  intro ts off e h hk
  cases ts with
  | nil => simp [try_fromAux] at h
  | cons part rest =>
    have hb : badToken part = false := by
      cases hbp : badToken part with
      | false => rfl
      | true => rw [List.findIdx_cons, hbp, cond_true] at hk; omega
    cases hc : classifyToken part with
    | invalid =>
      rw [(classifyToken_eq_invalid part).1 hc] at hb
      cases hb
    | literal =>
      simp only [try_fromAux, hc] at h
      have hrec := try_fromAux_error_position s sep h1 _ _ _ _ h
      simp only [List.findIdx_cons, hb, cond_false, tokenStart_cons, h1]
      omega
    | wildcard opt mult =>
      simp only [try_fromAux, hc, foldPush] at h
      have hrec := try_fromAux_error_position s sep h1 _ _ _ _ h
      simp only [List.findIdx_cons, hb, cond_false, tokenStart_cons, h1]
      omega

/-- C9 amended: the running offset is incremented once per token at loop
entry and a second time only for tokens that emit a step; wildcard tokens
folded into the previous step skip the second increment (so the position is
not always exactly double). Consequently, for a 1-byte separator, the
position reported for an invalid first token is 0, and the position
reported for a later invalid token strictly exceeds the token's true byte
offset (and is at most twice it). -/
theorem c9_position_bounds (sep : Char) (s : String) (e : InvalidToken)
    (hsep : charUtf8Size sep = 1)
    (h : DomainPattern.try_from sep s = .error e) :
    ((strSplit sep s).findIdx badToken = 0 → e.position = 0)
    ∧ (1 ≤ (strSplit sep s).findIdx badToken →
        tokenStart sep (strSplit sep s) ((strSplit sep s).findIdx badToken)
            < e.position
        ∧ e.position ≤
            2 * tokenStart sep (strSplit sep s)
              ((strSplit sep s).findIdx badToken)) := by
  have h' : try_fromAux s (strSplit sep s) [] 0 = .error e := by
    rw [DomainPattern.try_from] at h
    cases hr : try_fromAux s (strSplit sep s) [] 0 with
    | error e0 =>
      rw [hr] at h
      simp only [Except.map] at h
      cases h
      rfl
    | ok st =>
      rw [hr] at h
      simp [Except.map] at h
  constructor
  · intro hk0
    cases hts : strSplit sep s with
    | nil => rw [hts] at h'; simp [try_fromAux] at h'
    | cons part rest =>
      rw [hts] at h' hk0
      have hb : badToken part = true := by
        cases hbp : badToken part with
        | true => rfl
        | false => rw [List.findIdx_cons, hbp, cond_false] at hk0; omega
      have hc : classifyToken part = .invalid := (classifyToken_eq_invalid part).2 hb
      simp only [try_fromAux, hc] at h'
      cases h'
      rfl
  · intro hk1
    constructor
    · have := try_fromAux_error_position_strict s sep hsep _ _ _ h' hk1
      simpa using this
    · have := (try_fromAux_error_position s sep hsep _ _ _ _ h').2
      simpa using this

/-- Witness for the amended C9 at the pattern `a.b*`: the invalid token
`b*` is the second token, its true byte offset is 2, and the reported
position 4 satisfies `2 < 4 ≤ 2 * 2`. -/
theorem c9_position_witness :
    tokenStart '.' (strSplit '.' "a.b*") ((strSplit '.' "a.b*").findIdx badToken)
        < 4
    ∧ (4 : Nat) ≤ 2 * tokenStart '.' (strSplit '.' "a.b*")
        ((strSplit '.' "a.b*").findIdx badToken) :=
  (c9_position_bounds '.' "a.b*" ⟨4, "b*", "a.b*"⟩ rfl rfl).2 (by decide)

/-! ### Empty segments (C6) -/

theorem runLabels_filter_empty (steps : List DomainPatternPart) :
    ∀ (ls : List String) (stack : List Nat) (saw : Bool),
      runLabels steps (ls.filter (fun l => l ≠ "")) stack saw
        = runLabels steps ls stack saw := by
  intro ls
  induction ls with
  | nil => intro stack saw; rfl
  | cons l rest ih =>
    intro stack saw
    by_cases hl : l = ""
    · subst hl
      have hf : ("" :: rest).filter (fun l => l ≠ "")
          = rest.filter (fun l => l ≠ "") := by simp
      rw [hf, ih]
      simp [runLabels]
    · have hf : (l :: rest).filter (fun l => l ≠ "")
          = l :: rest.filter (fun l => l ≠ "") := by simp [hl]
      rw [hf]
      simp only [runLabels, if_neg hl]
      cases procStack steps l (sortNat stack) none [] false with
      | none => rfl
      | some r => exact ih r.1 r.2

theorem runLabels_all_empty (steps : List DomainPatternPart) :
    ∀ (ls : List String) (stack : List Nat) (saw : Bool),
      (∀ l ∈ ls, l = "") → runLabels steps ls stack saw = some saw := by
  intro ls
  induction ls with
  | nil => intro stack saw _; rfl
  | cons l rest ih =>
    intro stack saw hall
    have hl : l = "" := hall l (by simp)
    subst hl
    simp only [runLabels, if_pos rfl]
    exact ih stack saw (fun x hx => hall x (by simp [hx]))

/-- C6: empty labels are skipped without advancing any match state
(matching a name equals matching its non-empty labels only), and a name
with zero non-empty segments never matches any pattern: the `saw_last`
flag starts false and is never set. -/
theorem c6_empty_name_never_matches (p : DomainPattern) (name : String) :
    matchesSteps p.steps ((strSplit p.SPLITTER name).filter (fun l => l ≠ ""))
        = p.matches name
    ∧ ((∀ l ∈ strSplit p.SPLITTER name, l = "") →
        p.matches name = some false) :=
  ⟨runLabels_filter_empty p.steps (strSplit p.SPLITTER name) [0] false,
    fun hall => runLabels_all_empty p.steps (strSplit p.SPLITTER name) [0] false hall⟩

/-- Witness for C6: the compiled pattern `**` (a single zero-or-more
wildcard step) does not match the name `...`, whose segments are all
empty. -/
theorem c6_empty_name_witness :
    (DomainPattern.mk '.' [.Wildcard ⟨true, true⟩]).matches "..." = some false :=
  (c6_empty_name_never_matches (DomainPattern.mk '.' [.Wildcard ⟨true, true⟩])
    "...").2 (by decide)

/-! ### Matching with the default separator after to_owned (C3 amended) -/

/-- C3 amended: `to_owned` preserves matching for every pattern whose
separator is the default `.` (for other separators the owned copy splits
names on `.` instead, see the counterexample). -/
theorem c3_to_owned_preserves_matching_default_sep (p : DomainPattern)
    (name : String) (h : p.SPLITTER = '.') :
    p.to_owned.matches name = p.matches name := by
  show matchesSteps p.to_owned.steps (strSplit p.to_owned.SPLITTER name)
      = matchesSteps p.steps (strSplit p.SPLITTER name)
  rw [to_owned_steps, h]
  rfl

/-- Witness for the amended C3 at a concrete `.`-separated pattern. -/
theorem c3_to_owned_witness :
    (DomainPattern.mk '.' [.Static "a"]).to_owned.matches "a"
      = (DomainPattern.mk '.' [.Static "a"]).matches "a" :=
  c3_to_owned_preserves_matching_default_sep (DomainPattern.mk '.' [.Static "a"])
    "a" rfl

/-! ### Totality of the matching engine (C10) -/

theorem epsSkip_isSome : ∀ (l : List DomainPatternPart) (i : Nat) (acc : List Nat),
    l ≠ [] → ∃ r, epsSkip l i acc = some r := by
  intro l
  induction l with
  | nil => intro i acc h; exact absurd rfl h
  | cons part rest ih =>
    intro i acc _
    cases part with
    | Static d => exact ⟨(acc, false), rfl⟩
    | Wildcard w =>
      cases w with
      | mk m o =>
        cases o with
        | false => exact ⟨(acc, false), rfl⟩
        | true =>
          cases rest with
          | nil => exact ⟨(acc, true), rfl⟩
          | cons p2 r2 =>
            obtain ⟨r, hr⟩ := ih (i + 1) (acc ++ [i + 1]) (by simp)
            exact ⟨r, hr⟩

theorem procTail_isSome (steps : List DomainPatternPart) (path : Nat)
    (acc : List Nat) (h : path < steps.length) :
    ∃ r, procTail steps path acc = some r := by
  unfold procTail
  by_cases he : path + 1 = steps.length
  · exact ⟨(acc, true), by simp [he]⟩
  · have hne : steps.drop (path + 1) ≠ [] := by
      intro hd
      have := congrArg List.length hd
      simp [List.length_drop] at this
      omega
    obtain ⟨r, hr⟩ := epsSkip_isSome (steps.drop (path + 1)) (path + 1)
      (acc ++ [path + 1]) hne
    exact ⟨r, by simp [he, hr]⟩

theorem procPath_isSome (steps : List DomainPatternPart) (label : String)
    (path : Nat) (acc : List Nat) (h : path < steps.length) :
    ∃ r, procPath steps label path acc = some r := by
  unfold procPath
  rw [List.getElem?_eq_getElem h]
  cases steps[path] with
  | Static d =>
    by_cases hd : d = label
    · simpa [hd] using procTail_isSome steps path acc h
    · exact ⟨(acc, false), by simp [hd]⟩
  | Wildcard w =>
    simpa using procTail_isSome steps path
      (if w.multi then acc ++ [path] else acc) h

theorem procStack_isSome (steps : List DomainPatternPart) (label : String) :
    ∀ (paths : List Nat) (lp : Option Nat) (acc : List Nat) (saw : Bool),
      ∃ r, procStack steps label paths lp acc saw = some r := by
  intro paths
  induction paths with
  | nil => intro lp acc saw; exact ⟨(acc, saw), rfl⟩
  | cons path rest ih =>
    intro lp acc saw
    by_cases h1 : steps.length ≤ path
    · simpa [procStack, h1] using ih lp acc saw
    · by_cases h2 : lp = some path
      · simpa [procStack, h1, h2] using ih lp acc saw
      · obtain ⟨r0, hp⟩ := procPath_isSome steps label path acc (by omega)
        obtain ⟨r, hr⟩ := ih (some path) r0.1 (saw || r0.2)
        exact ⟨r, by simp [procStack, h1, h2, hp, hr]⟩

theorem runLabels_isSome (steps : List DomainPatternPart) :
    ∀ (ls : List String) (stack : List Nat) (saw : Bool),
      ∃ b, runLabels steps ls stack saw = some b := by
  intro ls
  induction ls with
  | nil => intro stack saw; exact ⟨saw, rfl⟩
  | cons l rest ih =>
    intro stack saw
    by_cases hl : l = ""
    · simpa [runLabels, hl] using ih stack saw
    · obtain ⟨r0, hp⟩ := procStack_isSome steps l (sortNat stack) none [] false
      obtain ⟨b, hb⟩ := ih r0.1 r0.2
      exact ⟨b, by simp [runLabels, hl, hp, hb]⟩

/-- C10: the matching engine is total and cannot fail. Every slice read is
in range (`matches` never returns `none`, which is how an out-of-range read
is modelled) and the optional-wildcard skip loop terminates, so every
pattern and every name, however degenerate, yield a boolean. -/
theorem c10_matches_total (p : DomainPattern) (domain : String) :
    ∃ b, p.matches domain = some b :=
  runLabels_isSome p.steps (strSplit p.SPLITTER domain) [0] false
